import Mathlib

/-!
Verification of the Schengen 90/180 trip-tracker compliance engine.

The engine lives in two TypeScript implementations: `src/main.tsx` (interval
based: `normalizeTrips`, `calculateUsedDaysWithinWindow`, `canStayForPeriod`,
`getMaxSafeStayFromDate`, `updateTripsFromSet`, `toggleDate`, `addTripRange`)
and `app/page.tsx` (per-day based: `calculateDaysInWindow`).

Calendar dates carry no time-of-day or timezone in the engine, so a date is
modelled as its day ordinal, an integer; `addDays d n` becomes `d + n` and
`differenceInCalendarDays b a` becomes `b - a`.  Lexicographic comparison of
ISO `YYYY-MM-DD` strings (used by the TypeScript sorts) agrees with the
chronological order of the underlying days, so both are modelled by `≤` on
the ordinals.  Trip ids are opaque fresh identifiers never used by the
computations, so they are dropped from the model.
-/

/-- A trip: a closed calendar-day interval, `src/main.tsx` type `Trip`
(the `id` field is dropped, see the header comment). -/
structure Trip where
  entryDate : Int
  exitDate : Int
deriving DecidableEq, Repr

instance : Inhabited Trip := ⟨⟨0, 0⟩⟩

/-- The set of calendar days covered by a trip: `[entryDate, exitDate]`,
empty when `exitDate < entryDate` (matching the per-day loops of
`toggleDate`/`addTripRange`, which run `for i in 0..diff` and add nothing
when the difference is negative). -/
def tripDays (t : Trip) : Finset Int := Finset.Icc t.entryDate t.exitDate

instance : IsTotal Trip (fun a b => a.entryDate ≤ b.entryDate) :=
  ⟨fun a b => Int.le_total a.entryDate b.entryDate⟩

instance : IsTrans Trip (fun a b => a.entryDate ≤ b.entryDate) :=
  ⟨fun _ _ _ hab hbc => le_trans hab hbc⟩

/-- The sort step of `normalizeTrips` (`src/main.tsx` line 74): stable sort
by `entryDate` (JS `sort` with `localeCompare` on ISO date strings; a stable
insertion sort produces the same list as any stable comparison sort). -/
def sortTrips (trips : List Trip) : List Trip :=
  trips.insertionSort (fun a b => a.entryDate ≤ b.entryDate)

/-- The merge loop of `normalizeTrips` (`src/main.tsx` lines 81-98): fold the
sorted list, merging `next` into `current` when `next.entryDate ≤
current.exitDate + 1` (overlap or exact adjacency) taking the max exit,
otherwise flushing `current`. -/
def mergeLoop (current : Trip) : List Trip → List Trip
  | [] => [current]
  | next :: rest =>
    if next.entryDate ≤ current.exitDate + 1 then
      mergeLoop { current with exitDate := max current.exitDate next.exitDate } rest
    else
      current :: mergeLoop next rest

/-- `normalizeTrips` (`src/main.tsx` lines 70-100). -/
def normalizeTrips (trips : List Trip) : List Trip :=
  match sortTrips trips with
  | [] => []
  | first :: rest => mergeLoop first rest

/-- The per-trip summand of `calculateUsedDaysWithinWindow` (`src/main.tsx`
lines 108-119): the inclusive day count of the intersection of the trip with
the window `[referenceDate - 179, referenceDate]`, `0` if disjoint. -/
def tripWindowDays (t : Trip) (referenceDate : Int) : Int :=
  let windowStart := referenceDate - 179
  let overlapStart := max t.entryDate windowStart
  let overlapEnd := min t.exitDate referenceDate
  if overlapStart ≤ overlapEnd then overlapEnd - overlapStart + 1 else 0

/-- `calculateUsedDaysWithinWindow` (`src/main.tsx` lines 102-122): sums the
per-trip window overlap counts; performs no merging itself. -/
def calculateUsedDaysWithinWindow (trips : List Trip) (referenceDate : Int) : Int :=
  trips.foldl (fun acc t => acc + tripWindowDays t referenceDate) 0

/-- Result record of `canStayForPeriod`. -/
structure StayCheck where
  isAllowed : Bool
  violationDate : Option Int
  usedOnExit : Int
deriving DecidableEq, Repr

/-- The day-scan loop of `canStayForPeriod` (`src/main.tsx` lines 140-152):
starting at `day`, for `fuel` consecutive days, return the first day whose
window usage exceeds 90 together with that usage; `none` if no day violates. -/
def scanViolation (combined : List Trip) (day : Int) : Nat → Option (Int × Int)
  | 0 => none
  | n + 1 =>
    if 90 < calculateUsedDaysWithinWindow combined day then
      some (day, calculateUsedDaysWithinWindow combined day)
    else scanViolation combined (day + 1) n

/-- `canStayForPeriod` (`src/main.tsx` lines 124-161): normalize the union of
the existing trips and the candidate `[plannedEntry, plannedExit]`, scan each
day of the candidate stay (`days = plannedExit - plannedEntry + 1` loop
iterations, none when negative), report the first violating day, otherwise
report success with the usage measured at `plannedExit`. -/
def canStayForPeriod (existingTrips : List Trip) (plannedEntry plannedExit : Int) :
    StayCheck :=
  let combinedTrips :=
    normalizeTrips (existingTrips ++ [{ entryDate := plannedEntry, exitDate := plannedExit }])
  let days := (plannedExit - plannedEntry + 1).toNat
  match scanViolation combinedTrips plannedEntry days with
  | some (d, u) => { isAllowed := false, violationDate := some d, usedOnExit := u }
  | none =>
    { isAllowed := true, violationDate := none,
      usedOnExit := calculateUsedDaysWithinWindow combinedTrips plannedExit }

/-- Result record of `getMaxSafeStayFromDate`. -/
structure MaxStay where
  maxDays : Int
  untilDate : Int
deriving DecidableEq, Repr

/-- The search loop of `getMaxSafeStayFromDate` (`src/main.tsx` lines
166-175): with `acc` lengths already known safe, try length `acc + 1`
(candidate exit `plannedEntry + acc`); on success continue (at most `fuel`
more tries), on the first failure stop and return `acc`. -/
def safeLengthFrom (trips : List Trip) (plannedEntry : Int) : Nat → Nat → Nat
  | acc, 0 => acc
  | acc, n + 1 =>
    if (canStayForPeriod trips plannedEntry (plannedEntry + (acc : Int))).isAllowed then
      safeLengthFrom trips plannedEntry (acc + 1) n
    else acc

/-- `getMaxSafeStayFromDate` (`src/main.tsx` lines 163-181): lengths 1..90
are tried in order, stopping at the first failure; `untilDate` is
`plannedEntry + safeLength - 1`. -/
def getMaxSafeStayFromDate (trips : List Trip) (plannedEntry : Int) : MaxStay :=
  let safeLength : Int := (safeLengthFrom trips plannedEntry 0 90 : Nat)
  { maxDays := safeLength, untilDate := plannedEntry + safeLength - 1 }

/-- The presence-set expansion used by `toggleDate`, `addTripRange` and the
calendar markings (`src/main.tsx` lines 266-274): every calendar day covered
by some trip, as a set of dates (the spec's `expand`). -/
def expandTrips (trips : List Trip) : Finset Int :=
  trips.foldl (fun s t => s ∪ tripDays t) ∅

/-- The run-length-encoding loop of `updateTripsFromSet` (`src/main.tsx`
lines 244-257): `tripStart` opens the current run, `tripPrev` is the last
date placed in it; a consecutive date (difference exactly 1) extends the run,
any other gap flushes `[tripStart, tripPrev]` and opens a new run. -/
def runLengthEncode (tripStart tripPrev : Int) : List Int → List Trip
  | [] => [{ entryDate := tripStart, exitDate := tripPrev }]
  | curr :: rest =>
    if curr - tripPrev = 1 then runLengthEncode tripStart curr rest
    else { entryDate := tripStart, exitDate := tripPrev } :: runLengthEncode curr curr rest

/-- The sort step of `updateTripsFromSet` (`src/main.tsx` line 236,
`Array.from(dateSet).sort()`): the elements of the presence set as an
ascending list.  Defined by lifting an insertion sort to the quotient so
that it evaluates inside the kernel. -/
def sortDates (s : Finset Int) : List Int :=
  Quot.liftOn s.val (List.insertionSort (· ≤ ·))
    (fun l₁ l₂ h =>
      List.eq_of_perm_of_sorted
        (((List.perm_insertionSort _ l₁).trans h).trans
          (List.perm_insertionSort _ l₂).symm)
        (List.sorted_insertionSort _ l₁) (List.sorted_insertionSort _ l₂))

/-- `updateTripsFromSet` (`src/main.tsx` lines 235-260): sort the presence
set ascending and run-length-encode it into trips (the spec's `collapse`;
the fresh `id`s it assigns are dropped from the model). -/
def updateTripsFromSet (dateSet : Finset Int) : List Trip :=
  match sortDates dateSet with
  | [] => []
  | d :: rest => runLengthEncode d d rest

/-- `toggleDate` (`src/main.tsx` lines 262-281): expand the trips to their
presence set, flip membership of the given date, collapse back. -/
def toggleDate (trips : List Trip) (date : Int) : List Trip :=
  let dateSet := expandTrips trips
  updateTripsFromSet (if date ∈ dateSet then dateSet.erase date else insert date dateSet)

/-- `addTripRange` (`src/main.tsx` lines 283-310): expand the trips, add all
days of the clicked range (either click order), collapse back. -/
def addTripRange (trips : List Trip) (startDate endDate : Int) : List Trip :=
  let dateSet := expandTrips trips
  updateTripsFromSet
    (dateSet ∪ Finset.Icc (min startDate endDate) (max startDate endDate))

/-- `calculateDaysInWindow` (`app/page.tsx` lines 117-129), the per-day
variant of the usage computation: counts the selected dates `d` with
`referenceDate - 180 ≤ d ≤ referenceDate`. -/
def calculateDaysInWindow (selectedDates : List Int) (referenceDate : Int) : Int :=
  let windowStart := referenceDate - 180
  selectedDates.foldl
    (fun acc d => if windowStart ≤ d ∧ d ≤ referenceDate then acc + 1 else acc) 0

/-- Statement vocabulary: consecutive intervals are separated by at least one
whole free calendar day (a gap of at least 2 between exit and next entry,
i.e. they neither overlap nor touch back-to-back). -/
abbrev GapOk (a b : Trip) : Prop := a.exitDate + 2 ≤ b.entryDate

/-- Statement vocabulary: every trip of the list satisfies the data-model
invariant `entryDate ≤ exitDate`. -/
abbrev ValidTrips (l : List Trip) : Prop := ∀ t ∈ l, t.entryDate ≤ t.exitDate

/-- Statement vocabulary: the NormalizedIntervalSet invariant — all trips
valid and consecutive trips separated by at least one free day (which forces
the list to be sorted strictly ascending and pairwise disjoint). -/
abbrev NormalizedList (l : List Trip) : Prop := ValidTrips l ∧ List.Chain' GapOk l

/-! ### Basic facts about coverage -/

theorem mem_tripDays {t : Trip} {x : Int} :
    x ∈ tripDays t ↔ t.entryDate ≤ x ∧ x ≤ t.exitDate := Finset.mem_Icc

theorem expandTrips_foldl (l : List Trip) (s : Finset Int) :
    l.foldl (fun s t => s ∪ tripDays t) s = s ∪ expandTrips l := by
  induction l generalizing s with
  | nil => simp [expandTrips]
  | cons t l ih =>
    simp only [expandTrips, List.foldl_cons]
    rw [ih, ih (∅ ∪ tripDays t)]
    ext x
    simp only [Finset.mem_union, Finset.not_mem_empty, false_or]
    tauto

theorem expandTrips_cons (t : Trip) (l : List Trip) :
    expandTrips (t :: l) = tripDays t ∪ expandTrips l := by
  have := expandTrips_foldl l (∅ ∪ tripDays t)
  simp only [expandTrips, List.foldl_cons] at *
  rw [this]
  ext x
  simp only [Finset.mem_union, Finset.not_mem_empty, false_or]

theorem expandTrips_append (l₁ l₂ : List Trip) :
    expandTrips (l₁ ++ l₂) = expandTrips l₁ ∪ expandTrips l₂ := by
  induction l₁ with
  | nil => simp [expandTrips]
  | cons t l ih =>
    rw [List.cons_append, expandTrips_cons, expandTrips_cons, ih, Finset.union_assoc]

theorem mem_expandTrips {l : List Trip} {x : Int} :
    x ∈ expandTrips l ↔ ∃ t ∈ l, t.entryDate ≤ x ∧ x ≤ t.exitDate := by
  induction l with
  | nil => simp [expandTrips]
  | cons t l ih => simp [expandTrips_cons, ih, mem_tripDays]

theorem expandTrips_perm {l₁ l₂ : List Trip} (h : l₁.Perm l₂) :
    expandTrips l₁ = expandTrips l₂ := by
  ext x
  rw [mem_expandTrips, mem_expandTrips]
  constructor
  · rintro ⟨t, ht, hx⟩
    exact ⟨t, h.mem_iff.mp ht, hx⟩
  · rintro ⟨t, ht, hx⟩
    exact ⟨t, h.mem_iff.mpr ht, hx⟩

theorem tripDays_union_of_reach {a b c d : Int} (hac : a ≤ c)
    (hcb : c ≤ b + 1) :
    Finset.Icc a (max b d) = Finset.Icc a b ∪ Finset.Icc c d := by
  ext x
  simp only [Finset.mem_Icc, Finset.mem_union]
  omega

/-! ### The merge loop of `normalizeTrips` -/

theorem mergeLoop_ne_nil (c : Trip) (l : List Trip) : mergeLoop c l ≠ [] := by
  induction l generalizing c with
  | nil => simp [mergeLoop]
  | cons next rest ih =>
    rw [mergeLoop]
    split
    · exact ih _
    · simp

theorem mergeLoop_headI_entry (c : Trip) (l : List Trip) :
    (mergeLoop c l).headI.entryDate = c.entryDate := by
  induction l generalizing c with
  | nil => simp [mergeLoop]
  | cons next rest ih =>
    rw [mergeLoop]
    split
    · exact ih _
    · simp

theorem mergeLoop_cover (c : Trip) (l : List Trip) (hc : c.entryDate ≤ c.exitDate)
    (hl : ValidTrips l) (hle : ∀ t ∈ l, c.entryDate ≤ t.entryDate)
    (hs : List.Pairwise (fun a b => a.entryDate ≤ b.entryDate) l) :
    expandTrips (mergeLoop c l) = tripDays c ∪ expandTrips l := by
  induction l generalizing c with
  | nil => simp [mergeLoop, expandTrips_cons, expandTrips]
  | cons next rest ih =>
    rw [List.pairwise_cons] at hs
    rw [mergeLoop]
    split
    case isTrue hmerge =>
      rw [ih { c with exitDate := max c.exitDate next.exitDate }
        (le_trans hc (le_max_left _ _))
        (fun t ht => hl t (List.mem_cons_of_mem _ ht))
        (fun t ht => hle t (List.mem_cons_of_mem _ ht)) hs.2]
      rw [expandTrips_cons]
      have hunion : tripDays { c with exitDate := max c.exitDate next.exitDate } =
          tripDays c ∪ tripDays next := by
        exact tripDays_union_of_reach (hle next (List.mem_cons_self _ _)) hmerge
      rw [hunion, Finset.union_assoc]
    case isFalse hflush =>
      rw [expandTrips_cons, expandTrips_cons,
        ih next (hl next (List.mem_cons_self _ _))
          (fun t ht => hl t (List.mem_cons_of_mem _ ht)) hs.1 hs.2]

theorem mergeLoop_valid (c : Trip) (l : List Trip) (hc : c.entryDate ≤ c.exitDate)
    (hl : ValidTrips l) : ValidTrips (mergeLoop c l) := by
  induction l generalizing c with
  | nil =>
    intro t ht
    simp only [mergeLoop, List.mem_singleton] at ht
    simpa [ht] using hc
  | cons next rest ih =>
    rw [mergeLoop]
    split
    case isTrue hmerge =>
      exact ih { c with exitDate := max c.exitDate next.exitDate }
        (le_trans hc (le_max_left _ _)) (fun t ht => hl t (List.mem_cons_of_mem _ ht))
    case isFalse hflush =>
      intro t ht
      rcases List.mem_cons.mp ht with h | h
      · simpa [h] using hc
      · exact ih next (hl next (List.mem_cons_self _ _))
          (fun t ht => hl t (List.mem_cons_of_mem _ ht)) t h

theorem mergeLoop_chain (c : Trip) (l : List Trip) : List.Chain' GapOk (mergeLoop c l) := by
  induction l generalizing c with
  | nil => simp [mergeLoop]
  | cons next rest ih =>
    rw [mergeLoop]
    split
    case isTrue hmerge => exact ih _
    case isFalse hflush =>
      rw [List.chain'_cons']
      refine ⟨?_, ih next⟩
      intro y hy
      obtain ⟨h, t, heq⟩ := List.exists_cons_of_ne_nil (mergeLoop_ne_nil next rest)
      have hhead : h = y := by
        rw [heq] at hy
        simpa using hy
      subst hhead
      have hentry : h.entryDate = next.entryDate := by
        have := mergeLoop_headI_entry next rest
        rw [heq] at this
        simpa using this
      show c.exitDate + 2 ≤ h.entryDate
      rw [hentry]
      omega

/-! ### `normalizeTrips` -/

theorem sortTrips_perm (trips : List Trip) : (sortTrips trips).Perm trips :=
  List.perm_insertionSort _ trips

theorem sortTrips_sorted (trips : List Trip) :
    List.Pairwise (fun a b => a.entryDate ≤ b.entryDate) (sortTrips trips) :=
  List.sorted_insertionSort _ trips

theorem normalizeTrips_chain (trips : List Trip) :
    List.Chain' GapOk (normalizeTrips trips) := by
  rw [normalizeTrips]
  split
  · simp
  · exact mergeLoop_chain _ _

theorem normalizeTrips_valid (trips : List Trip) (hv : ValidTrips trips) :
    ValidTrips (normalizeTrips trips) := by
  have hv' : ValidTrips (sortTrips trips) := fun t ht =>
    hv t ((sortTrips_perm trips).mem_iff.mp ht)
  rw [normalizeTrips]
  split
  · intro t ht
    simp at ht
  case h_2 first rest heq =>
    rw [heq] at hv'
    exact mergeLoop_valid first rest (hv' first (List.mem_cons_self _ _))
      (fun t ht => hv' t (List.mem_cons_of_mem _ ht))

theorem normalizeTrips_cover (trips : List Trip) (hv : ValidTrips trips) :
    expandTrips (normalizeTrips trips) = expandTrips trips := by
  have hv' : ValidTrips (sortTrips trips) := fun t ht =>
    hv t ((sortTrips_perm trips).mem_iff.mp ht)
  have hs := sortTrips_sorted trips
  have hperm : expandTrips (sortTrips trips) = expandTrips trips :=
    expandTrips_perm (sortTrips_perm trips)
  rw [normalizeTrips]
  split
  case h_1 heq =>
    rw [heq] at hperm
    exact hperm
  case h_2 first rest heq =>
    rw [heq] at hv' hs hperm
    rw [List.pairwise_cons] at hs
    rw [mergeLoop_cover first rest (hv' first (List.mem_cons_self _ _))
      (fun t ht => hv' t (List.mem_cons_of_mem _ ht)) hs.1 hs.2, ← hperm,
      expandTrips_cons]

/-! ### Consequences of the NormalizedIntervalSet invariant -/

theorem chain_gap_head {a : Trip} {l : List Trip} (hv : ValidTrips (a :: l))
    (hc : List.Chain' GapOk (a :: l)) : ∀ b ∈ l, GapOk a b := by
  induction l generalizing a with
  | nil => simp
  | cons c l ih =>
    intro b hb
    have hac : GapOk a c := (List.chain'_cons.mp hc).1
    rcases List.mem_cons.mp hb with rfl | hb'
    · exact hac
    · have hvc : ValidTrips (c :: l) := fun t ht => hv t (List.mem_cons_of_mem _ ht)
      have hcb : GapOk c b := ih hvc (List.chain'_cons.mp hc).2 b hb'
      have hcvalid : c.entryDate ≤ c.exitDate := hvc c (List.mem_cons_self _ _)
      show a.exitDate + 2 ≤ b.entryDate
      omega

theorem normalized_pairwise_gap {l : List Trip} (h : NormalizedList l) :
    List.Pairwise GapOk l := by
  obtain ⟨hv, hc⟩ := h
  induction l with
  | nil => exact List.Pairwise.nil
  | cons a l ih =>
    rw [List.pairwise_cons]
    exact ⟨chain_gap_head hv hc,
      ih (fun t ht => hv t (List.mem_cons_of_mem _ ht)) hc.tail⟩

theorem normalized_sorted_lt {l : List Trip} (h : NormalizedList l) :
    List.Pairwise (fun a b => a.entryDate < b.entryDate) l := by
  refine (normalized_pairwise_gap h).imp_of_mem ?_
  intro a b ha _ hab
  have := h.1 a ha
  show a.entryDate < b.entryDate
  omega

theorem gap_disjoint {a b : Trip} (hab : GapOk a b) :
    Disjoint (tripDays a) (tripDays b) := by
  rw [Finset.disjoint_left]
  intro x hxa hxb
  rw [mem_tripDays] at hxa hxb
  omega

theorem normalized_pairwise_disjoint {l : List Trip} (h : NormalizedList l) :
    List.Pairwise (fun a b => Disjoint (tripDays a) (tripDays b)) l :=
  (normalized_pairwise_gap h).imp gap_disjoint

/-! ### Window usage as a cardinality -/

theorem usedDays_foldl_shift (l : List Trip) (referenceDate : Int) (a : Int) :
    l.foldl (fun acc t => acc + tripWindowDays t referenceDate) a =
      a + calculateUsedDaysWithinWindow l referenceDate := by
  induction l generalizing a with
  | nil => simp [calculateUsedDaysWithinWindow]
  | cons t l ih =>
    simp only [calculateUsedDaysWithinWindow, List.foldl_cons]
    rw [ih, ih (0 + tripWindowDays t referenceDate)]
    ring

theorem usedDays_cons (t : Trip) (l : List Trip) (referenceDate : Int) :
    calculateUsedDaysWithinWindow (t :: l) referenceDate =
      tripWindowDays t referenceDate + calculateUsedDaysWithinWindow l referenceDate := by
  simp only [calculateUsedDaysWithinWindow, List.foldl_cons]
  rw [usedDays_foldl_shift]
  simp only [calculateUsedDaysWithinWindow]
  ring

theorem tripWindowDays_eq_card (t : Trip) (referenceDate : Int) :
    tripWindowDays t referenceDate =
      ((tripDays t ∩ Finset.Icc (referenceDate - 179) referenceDate).card : Int) := by
  have hinter : tripDays t ∩ Finset.Icc (referenceDate - 179) referenceDate =
      Finset.Icc (max t.entryDate (referenceDate - 179)) (min t.exitDate referenceDate) := by
    ext x
    simp only [tripDays, Finset.mem_inter, Finset.mem_Icc]
    omega
  rw [hinter, Int.card_Icc, tripWindowDays]
  split
  · omega
  · omega

theorem disjoint_tripDays_expandTrips {t : Trip} {l : List Trip}
    (h : ∀ u ∈ l, Disjoint (tripDays t) (tripDays u)) :
    Disjoint (tripDays t) (expandTrips l) := by
  induction l with
  | nil => simp [expandTrips]
  | cons u l ih =>
    rw [expandTrips_cons, Finset.disjoint_union_right]
    exact ⟨h u (List.mem_cons_self _ _),
      ih fun v hv => h v (List.mem_cons_of_mem _ hv)⟩

theorem usedDays_eq_card (l : List Trip) (referenceDate : Int)
    (hd : List.Pairwise (fun a b => Disjoint (tripDays a) (tripDays b)) l) :
    calculateUsedDaysWithinWindow l referenceDate =
      ((expandTrips l ∩ Finset.Icc (referenceDate - 179) referenceDate).card : Int) := by
  induction l with
  | nil => simp [calculateUsedDaysWithinWindow, expandTrips]
  | cons t l ih =>
    rw [List.pairwise_cons] at hd
    rw [usedDays_cons, tripWindowDays_eq_card, ih hd.2, expandTrips_cons,
      Finset.union_inter_distrib_right, Finset.card_union_of_disjoint, Nat.cast_add]
    exact Finset.disjoint_of_subset_left Finset.inter_subset_left
      (Finset.disjoint_of_subset_right Finset.inter_subset_left
        (disjoint_tripDays_expandTrips hd.1))

/-! ### The day scan of `canStayForPeriod` -/

theorem scanViolation_eq_none_iff (combined : List Trip) :
    ∀ (n : Nat) (day : Int), scanViolation combined day n = none ↔
      ∀ i : Nat, i < n → calculateUsedDaysWithinWindow combined (day + i) ≤ 90 := by
  intro n
  induction n with
  | zero =>
    intro day
    simp [scanViolation]
  | succ n ih =>
    intro day
    rw [scanViolation]
    split
    case isTrue h =>
      simp only [reduceCtorEq, false_iff, not_forall]
      refine ⟨0, Nat.succ_pos n, ?_⟩
      simp only [Nat.cast_zero, add_zero]
      omega
    case isFalse h =>
      rw [ih (day + 1)]
      constructor
      · intro hall i hi
        cases i with
        | zero =>
          simp only [Nat.cast_zero, add_zero]
          omega
        | succ j =>
          have := hall j (by omega)
          have harith : day + 1 + (j : Int) = day + ((j : Nat) + 1 : Nat) := by
            push_cast
            ring
          rwa [harith] at this
      · intro hall i hi
        have := hall (i + 1) (by omega)
        have harith : day + ((i : Nat) + 1 : Nat) = day + 1 + (i : Int) := by
          push_cast
          ring
        rwa [harith] at this

theorem scanViolation_eq_some (combined : List Trip) :
    ∀ (n : Nat) (day d u : Int), scanViolation combined day n = some (d, u) →
      ∃ i : Nat, i < n ∧ d = day + i ∧
        u = calculateUsedDaysWithinWindow combined d ∧ 90 < u ∧
        ∀ j : Nat, j < i → calculateUsedDaysWithinWindow combined (day + j) ≤ 90 := by
  intro n
  induction n with
  | zero =>
    intro day d u h
    simp [scanViolation] at h
  | succ n ih =>
    intro day d u h
    rw [scanViolation] at h
    split at h
    case isTrue hgt =>
      simp only [Option.some.injEq, Prod.mk.injEq] at h
      obtain ⟨h1, h2⟩ := h
      subst h1
      subst h2
      exact ⟨0, Nat.succ_pos n, by simp, rfl, hgt,
        fun j hj => absurd hj (Nat.not_lt_zero j)⟩
    case isFalse hle =>
      obtain ⟨i, hi, hd, hu, hgt, hmin⟩ := ih (day + 1) d u h
      refine ⟨i + 1, by omega, ?_, hu, hgt, ?_⟩
      · push_cast
        omega
      · intro j hj
        cases j with
        | zero =>
          simp only [Nat.cast_zero, add_zero]
          omega
        | succ j' =>
          have := hmin j' (by omega)
          have harith : day + 1 + (j' : Int) = day + ((j' : Nat) + 1 : Nat) := by
            push_cast
            ring
          rwa [harith] at this

theorem scanViolation_finds (combined : List Trip) :
    ∀ (n : Nat) (day : Int) (i : Nat), i < n →
      90 < calculateUsedDaysWithinWindow combined (day + i) →
      (∀ j : Nat, j < i → calculateUsedDaysWithinWindow combined (day + j) ≤ 90) →
      scanViolation combined day n =
        some (day + i, calculateUsedDaysWithinWindow combined (day + i)) := by
  intro n
  induction n with
  | zero =>
    intro day i hi
    omega
  | succ n ih =>
    intro day i hi hgt hmin
    rw [scanViolation]
    split
    case isTrue h =>
      have hizero : i = 0 := by
        by_contra hne
        have := hmin 0 (by omega)
        simp only [Nat.cast_zero, add_zero] at this
        omega
      subst hizero
      simp
    case isFalse h =>
      have hipos : i ≠ 0 := by
        intro hz
        subst hz
        simp only [Nat.cast_zero, add_zero] at hgt
        omega
      obtain ⟨i', rfl⟩ := Nat.exists_eq_succ_of_ne_zero hipos
      have harith : day + ((i' : Nat) + 1 : Nat) = day + 1 + (i' : Int) := by
        push_cast
        ring
      rw [harith]
      rw [harith] at hgt
      refine ih (day + 1) i' (by omega) hgt ?_
      intro j hj
      have := hmin (j + 1) (by omega)
      have harith2 : day + ((j : Nat) + 1 : Nat) = day + 1 + (j : Int) := by
        push_cast
        ring
      rwa [harith2] at this

/-- Unfolding equation for `canStayForPeriod`. -/
theorem canStayForPeriod_eq (trips : List Trip) (E X : Int) :
    canStayForPeriod trips E X =
      match scanViolation (normalizeTrips (trips ++ [{ entryDate := E, exitDate := X }])) E
          ((X - E + 1).toNat) with
      | some (d, u) => { isAllowed := false, violationDate := some d, usedOnExit := u }
      | none =>
        { isAllowed := true, violationDate := none,
          usedOnExit := calculateUsedDaysWithinWindow
            (normalizeTrips (trips ++ [{ entryDate := E, exitDate := X }])) X } := rfl

theorem canStay_not_allowed_iff (trips : List Trip) (E X : Int) :
    (canStayForPeriod trips E X).isAllowed = false ↔
      ∃ d : Int, E ≤ d ∧ d ≤ X ∧
        90 < calculateUsedDaysWithinWindow
          (normalizeTrips (trips ++ [{ entryDate := E, exitDate := X }])) d := by
  rw [canStayForPeriod_eq]
  cases hscan : scanViolation (normalizeTrips (trips ++ [{ entryDate := E, exitDate := X }]))
      E ((X - E + 1).toNat) with
  | none =>
    simp only [reduceCtorEq, false_iff, not_exists]
    intro d hd
    obtain ⟨hdE, hdX, hgt⟩ := hd
    rw [scanViolation_eq_none_iff] at hscan
    have hi : (d - E).toNat < (X - E + 1).toNat := by omega
    have := hscan (d - E).toNat hi
    have harith : E + ((d - E).toNat : Int) = d := by omega
    rw [harith] at this
    omega
  | some p =>
    obtain ⟨d, u⟩ := p
    obtain ⟨i, hi, rfl, hu, hgt, hmin⟩ := scanViolation_eq_some _ _ _ _ _ hscan
    simp only [true_iff]
    exact ⟨E + i, by omega, by omega, by omega⟩

/-! ### The search loop of `getMaxSafeStayFromDate` -/

theorem safeLengthFrom_spec (trips : List Trip) (E : Int) :
    ∀ (n acc : Nat),
      acc ≤ safeLengthFrom trips E acc n ∧
      safeLengthFrom trips E acc n ≤ acc + n ∧
      (safeLengthFrom trips E acc n = acc ∨
        (canStayForPeriod trips E
          (E + (safeLengthFrom trips E acc n : Int) - 1)).isAllowed = true) ∧
      (safeLengthFrom trips E acc n < acc + n →
        (canStayForPeriod trips E
          (E + (safeLengthFrom trips E acc n : Int))).isAllowed = false) := by
  intro n
  induction n with
  | zero =>
    intro acc
    refine ⟨le_refl _, by simp [safeLengthFrom], Or.inl rfl, ?_⟩
    simp [safeLengthFrom]
  | succ n ih =>
    intro acc
    rw [safeLengthFrom]
    split
    case isTrue h =>
      obtain ⟨h1, h2, h3, h4⟩ := ih (acc + 1)
      refine ⟨by omega, by omega, ?_, fun hlt => h4 (by omega)⟩
      rcases h3 with heq | hok
      · right
        rw [heq]
        have harith : E + (((acc : Nat) + 1 : Nat) : Int) - 1 = E + (acc : Int) := by
          push_cast
          ring
        rw [harith]
        exact h
      · right
        exact hok
    case isFalse h =>
      exact ⟨le_refl _, by omega, Or.inl rfl,
        fun _ => Bool.eq_false_iff.mpr h⟩

/-! ### The run-length encoding of `updateTripsFromSet` -/

theorem sortDates_coe (s : Finset Int) : (sortDates s : Multiset Int) = s.val := by
  rcases s with ⟨m, hnodup⟩
  induction m using Quot.ind with
  | _ l => exact Quotient.sound (List.perm_insertionSort _ l)

theorem sortDates_sorted (s : Finset Int) : List.Sorted (· ≤ ·) (sortDates s) := by
  rcases s with ⟨m, hnodup⟩
  induction m using Quot.ind with
  | _ l => exact List.sorted_insertionSort _ l

theorem sortDates_nodup (s : Finset Int) : (sortDates s).Nodup := by
  have h : ((sortDates s : Multiset Int)).Nodup := by
    rw [sortDates_coe]
    exact s.nodup
  exact Multiset.coe_nodup.mp h

theorem sortDates_pairwise_lt (s : Finset Int) :
    List.Pairwise (· < ·) (sortDates s) :=
  (sortDates_sorted s).lt_of_le (sortDates_nodup s)

theorem mem_sortDates {s : Finset Int} {x : Int} : x ∈ sortDates s ↔ x ∈ s := by
  rw [← Multiset.mem_coe, sortDates_coe]
  exact Iff.rfl

theorem runLengthEncode_ne_nil (ts tp : Int) (l : List Int) :
    runLengthEncode ts tp l ≠ [] := by
  induction l generalizing ts tp with
  | nil => simp [runLengthEncode]
  | cons curr rest ih =>
    rw [runLengthEncode]
    split
    · exact ih _ _
    · simp

theorem runLengthEncode_headI_entry (ts tp : Int) (l : List Int) :
    (runLengthEncode ts tp l).headI.entryDate = ts := by
  induction l generalizing ts tp with
  | nil => simp [runLengthEncode]
  | cons curr rest ih =>
    rw [runLengthEncode]
    split
    · exact ih _ _
    · simp

theorem runLengthEncode_valid (ts tp : Int) (l : List Int) (h : ts ≤ tp)
    (hgt : ∀ x ∈ l, tp < x) (hs : List.Pairwise (· < ·) l) :
    ValidTrips (runLengthEncode ts tp l) := by
  induction l generalizing ts tp with
  | nil =>
    intro t ht
    simp only [runLengthEncode, List.mem_singleton] at ht
    simpa [ht] using h
  | cons curr rest ih =>
    rw [List.pairwise_cons] at hs
    rw [runLengthEncode]
    split
    case isTrue hone =>
      exact ih ts curr (by have := hgt curr (List.mem_cons_self _ _); omega)
        (fun x hx => hs.1 x hx) hs.2
    case isFalse hone =>
      intro t ht
      rcases List.mem_cons.mp ht with rfl | ht'
      · simpa using h
      · exact ih curr curr (le_refl _) (fun x hx => hs.1 x hx) hs.2 t ht'

theorem runLengthEncode_chain (ts tp : Int) (l : List Int)
    (hgt : ∀ x ∈ l, tp < x) (hs : List.Pairwise (· < ·) l) :
    List.Chain' GapOk (runLengthEncode ts tp l) := by
  induction l generalizing ts tp with
  | nil => simp [runLengthEncode]
  | cons curr rest ih =>
    rw [List.pairwise_cons] at hs
    rw [runLengthEncode]
    split
    case isTrue hone => exact ih ts curr (fun x hx => hs.1 x hx) hs.2
    case isFalse hone =>
      rw [List.chain'_cons']
      refine ⟨?_, ih curr curr (fun x hx => hs.1 x hx) hs.2⟩
      intro y hy
      obtain ⟨h, t, heq⟩ := List.exists_cons_of_ne_nil (runLengthEncode_ne_nil curr curr rest)
      have hhead : h = y := by
        rw [heq] at hy
        simpa using hy
      subst hhead
      have hentry : h.entryDate = curr := by
        have := runLengthEncode_headI_entry curr curr rest
        rw [heq] at this
        simpa using this
      have hcurr := hgt curr (List.mem_cons_self _ _)
      show tp + 2 ≤ h.entryDate
      rw [hentry]
      omega

theorem runLengthEncode_cover (ts tp : Int) (l : List Int) (h : ts ≤ tp)
    (hgt : ∀ x ∈ l, tp < x) (hs : List.Pairwise (· < ·) l) :
    expandTrips (runLengthEncode ts tp l) = Finset.Icc ts tp ∪ l.toFinset := by
  induction l generalizing ts tp with
  | nil =>
    simp only [runLengthEncode, List.toFinset_nil, Finset.union_empty]
    rw [expandTrips_cons]
    simp [expandTrips, tripDays]
  | cons curr rest ih =>
    rw [List.pairwise_cons] at hs
    rw [runLengthEncode]
    split
    case isTrue hone =>
      rw [ih ts curr (by have := hgt curr (List.mem_cons_self _ _); omega)
        (fun x hx => hs.1 x hx) hs.2]
      have hicc : Finset.Icc ts curr = Finset.Icc ts tp ∪ {curr} := by
        ext x
        simp only [Finset.mem_Icc, Finset.mem_union, Finset.mem_singleton]
        omega
      rw [hicc, List.toFinset_cons, Finset.union_assoc]
      congr 1
    case isFalse hone =>
      rw [expandTrips_cons,
        ih curr curr (le_refl _) (fun x hx => hs.1 x hx) hs.2]
      have hicc : Finset.Icc curr curr = {curr} := Finset.Icc_self curr
      rw [hicc, List.toFinset_cons, tripDays, Finset.insert_eq]

theorem updateTripsFromSet_normalized (s : Finset Int) :
    NormalizedList (updateTripsFromSet s) := by
  rw [updateTripsFromSet]
  split
  case h_1 => exact ⟨fun t ht => absurd ht (List.not_mem_nil t), List.chain'_nil⟩
  case h_2 d rest heq =>
    have hsorted : List.Pairwise (· < ·) (d :: rest) := by
      rw [← heq]
      exact sortDates_pairwise_lt s
    rw [List.pairwise_cons] at hsorted
    exact ⟨runLengthEncode_valid d d rest (le_refl _) hsorted.1 hsorted.2,
      runLengthEncode_chain d d rest hsorted.1 hsorted.2⟩

theorem updateTripsFromSet_cover (s : Finset Int) :
    expandTrips (updateTripsFromSet s) = s := by
  rw [updateTripsFromSet]
  split
  case h_1 heq =>
    have : ∀ x, x ∉ s := by
      intro x hx
      have := mem_sortDates.mpr hx
      rw [heq] at this
      exact absurd this (List.not_mem_nil x)
    ext x
    simp only [mem_expandTrips]
    constructor
    · rintro ⟨t, ht, _⟩
      exact absurd ht (by simp [expandTrips])
    · intro hx
      exact absurd hx (this x)
  case h_2 d rest heq =>
    have hsorted : List.Pairwise (· < ·) (d :: rest) := by
      rw [← heq]
      exact sortDates_pairwise_lt s
    rw [List.pairwise_cons] at hsorted
    rw [runLengthEncode_cover d d rest (le_refl _) hsorted.1 hsorted.2,
      Finset.Icc_self]
    ext x
    simp only [Finset.mem_union, Finset.mem_singleton, List.mem_toFinset]
    rw [← List.mem_cons, ← heq, mem_sortDates]

/-! ### Uniqueness of the normalized representation -/

theorem normalizedList_tail {t : Trip} {l : List Trip} (h : NormalizedList (t :: l)) :
    NormalizedList l :=
  ⟨fun u hu => h.1 u (List.mem_cons_of_mem _ hu), h.2.tail⟩

theorem expandTrips_tail_bound {t : Trip} {l : List Trip} (h : NormalizedList (t :: l)) :
    ∀ x ∈ expandTrips l, t.exitDate + 2 ≤ x := by
  intro x hx
  obtain ⟨u, hu, hux⟩ := mem_expandTrips.mp hx
  have := chain_gap_head h.1 h.2 u hu
  show t.exitDate + 2 ≤ x
  omega

theorem expandTrips_lower_bound {t : Trip} {l : List Trip} (h : NormalizedList (t :: l)) :
    ∀ x ∈ expandTrips (t :: l), t.entryDate ≤ x := by
  intro x hx
  rw [expandTrips_cons, Finset.mem_union] at hx
  rcases hx with hx | hx
  · exact (mem_tripDays.mp hx).1
  · have := expandTrips_tail_bound h x hx
    have := h.1 t (List.mem_cons_self _ _)
    omega

theorem entry_mem_expandTrips {t : Trip} {l : List Trip} (hv : ValidTrips (t :: l)) :
    t.entryDate ∈ expandTrips (t :: l) := by
  rw [expandTrips_cons, Finset.mem_union]
  left
  rw [mem_tripDays]
  exact ⟨le_refl _, hv t (List.mem_cons_self _ _)⟩

theorem exit_succ_not_mem_expandTrips {t : Trip} {l : List Trip}
    (h : NormalizedList (t :: l)) : t.exitDate + 1 ∉ expandTrips (t :: l) := by
  rw [expandTrips_cons, Finset.mem_union]
  rintro (hx | hx)
  · rw [mem_tripDays] at hx
    omega
  · have := expandTrips_tail_bound h _ hx
    omega

theorem normalized_cover_unique :
    ∀ l₁ l₂ : List Trip, NormalizedList l₁ → NormalizedList l₂ →
      expandTrips l₁ = expandTrips l₂ → l₁ = l₂ := by
  intro l₁
  induction l₁ with
  | nil =>
    intro l₂ h₁ h₂ hcov
    cases l₂ with
    | nil => rfl
    | cons t₂ l₂ =>
      exfalso
      have hmem := entry_mem_expandTrips h₂.1
      rw [← hcov] at hmem
      simp [expandTrips] at hmem
  | cons t₁ l₁ ih =>
    intro l₂ h₁ h₂ hcov
    cases l₂ with
    | nil =>
      exfalso
      have hmem := entry_mem_expandTrips h₁.1
      rw [hcov] at hmem
      simp [expandTrips] at hmem
    | cons t₂ l₂ =>
      have hmem₁ : t₁.entryDate ∈ expandTrips (t₂ :: l₂) := by
        rw [← hcov]
        exact entry_mem_expandTrips h₁.1
      have hmem₂ : t₂.entryDate ∈ expandTrips (t₁ :: l₁) := by
        rw [hcov]
        exact entry_mem_expandTrips h₂.1
      have hEntry : t₁.entryDate = t₂.entryDate :=
        le_antisymm (expandTrips_lower_bound h₁ _ hmem₂)
          (expandTrips_lower_bound h₂ _ hmem₁)
      have hExit : t₁.exitDate = t₂.exitDate := by
        by_contra hne
        rcases lt_or_gt_of_ne hne with hlt | hgt
        · have hmem : t₁.exitDate + 1 ∈ expandTrips (t₂ :: l₂) := by
            rw [expandTrips_cons, Finset.mem_union]
            left
            rw [mem_tripDays]
            have hv₁ := h₁.1 t₁ (List.mem_cons_self _ _)
            omega
          rw [← hcov] at hmem
          exact exit_succ_not_mem_expandTrips h₁ hmem
        · have hmem : t₂.exitDate + 1 ∈ expandTrips (t₁ :: l₁) := by
            rw [expandTrips_cons, Finset.mem_union]
            left
            rw [mem_tripDays]
            have hv₂ := h₂.1 t₂ (List.mem_cons_self _ _)
            omega
          rw [hcov] at hmem
          exact exit_succ_not_mem_expandTrips h₂ hmem
      have hTrip : t₁ = t₂ := by
        cases t₁
        cases t₂
        simp only [Trip.mk.injEq]
        exact ⟨hEntry, hExit⟩
      subst hTrip
      have hcovtail : expandTrips l₁ = expandTrips l₂ := by
        ext x
        constructor
        · intro hx
          have hbound := expandTrips_tail_bound h₁ x hx
          have hx' : x ∈ expandTrips (t₁ :: l₂) := by
            rw [← hcov, expandTrips_cons, Finset.mem_union]
            right
            exact hx
          rw [expandTrips_cons, Finset.mem_union] at hx'
          rcases hx' with hx' | hx'
          · rw [mem_tripDays] at hx'
            omega
          · exact hx'
        · intro hx
          have hbound := expandTrips_tail_bound h₂ x hx
          have hx' : x ∈ expandTrips (t₁ :: l₁) := by
            rw [hcov, expandTrips_cons, Finset.mem_union]
            right
            exact hx
          rw [expandTrips_cons, Finset.mem_union] at hx'
          rcases hx' with hx' | hx'
          · rw [mem_tripDays] at hx'
            omega
          · exact hx'
      rw [ih l₂ (normalizedList_tail h₁) (normalizedList_tail h₂) hcovtail]

/-- `normalizeTrips` is the identity on lists already satisfying the
NormalizedIntervalSet invariant. -/
theorem normalizeTrips_id_of_normalized {l : List Trip} (h : NormalizedList l) :
    normalizeTrips l = l :=
  normalized_cover_unique _ _
    ⟨normalizeTrips_valid l h.1, normalizeTrips_chain l⟩ h
    (normalizeTrips_cover l h.1)

/-! ### The combined trip list of `canStayForPeriod` -/

theorem expandTrips_singleton (t : Trip) : expandTrips [t] = tripDays t := by
  rw [expandTrips_cons]
  simp [expandTrips]

theorem combined_valid (trips : List Trip) (E X : Int) (hv : ValidTrips trips)
    (hEX : E ≤ X) : ValidTrips (trips ++ [{ entryDate := E, exitDate := X }]) := by
  intro t ht
  rcases List.mem_append.mp ht with h | h
  · exact hv t h
  · rw [List.mem_singleton] at h
    subst h
    exact hEX

theorem combined_normalized (trips : List Trip) (E X : Int) (hv : ValidTrips trips)
    (hEX : E ≤ X) :
    NormalizedList (normalizeTrips (trips ++ [{ entryDate := E, exitDate := X }])) :=
  ⟨normalizeTrips_valid _ (combined_valid trips E X hv hEX), normalizeTrips_chain _⟩

theorem combined_cover (trips : List Trip) (E X : Int) (hv : ValidTrips trips)
    (hEX : E ≤ X) :
    expandTrips (normalizeTrips (trips ++ [{ entryDate := E, exitDate := X }])) =
      expandTrips trips ∪ Finset.Icc E X := by
  rw [normalizeTrips_cover _ (combined_valid trips E X hv hEX), expandTrips_append,
    expandTrips_singleton, tripDays]

theorem usedDays_combined_mono (trips : List Trip) (E k m d : Int)
    (hv : ValidTrips trips) (hk : 0 ≤ k) (hkm : k ≤ m) :
    calculateUsedDaysWithinWindow
        (normalizeTrips (trips ++ [{ entryDate := E, exitDate := E + k }])) d ≤
      calculateUsedDaysWithinWindow
        (normalizeTrips (trips ++ [{ entryDate := E, exitDate := E + m }])) d := by
  have h₁ := combined_normalized trips E (E + k) hv (by omega)
  have h₂ := combined_normalized trips E (E + m) hv (by omega)
  rw [usedDays_eq_card _ _ (normalized_pairwise_disjoint h₁),
    usedDays_eq_card _ _ (normalized_pairwise_disjoint h₂)]
  have hsub : expandTrips (normalizeTrips (trips ++ [{ entryDate := E, exitDate := E + k }])) ⊆
      expandTrips (normalizeTrips (trips ++ [{ entryDate := E, exitDate := E + m }])) := by
    rw [combined_cover trips E (E + k) hv (by omega),
      combined_cover trips E (E + m) hv (by omega)]
    exact Finset.union_subset_union_right (Finset.Icc_subset_Icc_right (by omega))
  exact_mod_cast Finset.card_le_card
    (Finset.inter_subset_inter hsub (Finset.Subset.refl _))

/-! ### Claim theorems -/

/-- C1: the claim states that for every trip list and reference date `D` the
usage is computed over the closed window `[D - 179, D]` (exactly 180 calendar
days).  This holds for `calculateUsedDaysWithinWindow` (`src/main.tsx`), but
the claim also covers `calculateDaysInWindow` (`app/page.tsx`), which
subtracts 180 days and so counts the closed window `[D - 180, D]` of 181
calendar days: a single presence day lying exactly 180 days before the
reference day is outside the claimed window (and contributes 0 in
`src/main.tsx`), yet `calculateDaysInWindow` counts it. -/
theorem c1_window_off_by_one :
    calculateDaysInWindow [0] 180 = 1 ∧
    calculateUsedDaysWithinWindow [{ entryDate := 0, exitDate := 0 }] 180 = 0 ∧
    (0 : Int) ∉ Finset.Icc (180 - 179 : Int) 180 := by
  refine ⟨?_, ?_, ?_⟩ <;> decide

/-- C2: for `E ≤ X`, `canStayForPeriod` normalizes the union of the existing
trips and `[E, X]`, and scans the days of the stay in ascending order: if no
day of `[E, X]` has usage above 90 it reports success with `usedOnExit` equal
to the usage of the combined normalized set at `X` (which is then at most
90); and the first day `d` whose usage exceeds 90 is reported as the
violation day with `isAllowed = false`. -/
theorem c2_checkStay_scan_spec (trips : List Trip) (E X : Int) (hEX : E ≤ X) :
    ((∀ d : Int, E ≤ d → d ≤ X →
        calculateUsedDaysWithinWindow
          (normalizeTrips (trips ++ [{ entryDate := E, exitDate := X }])) d ≤ 90) →
      canStayForPeriod trips E X =
        { isAllowed := true, violationDate := none,
          usedOnExit := calculateUsedDaysWithinWindow
            (normalizeTrips (trips ++ [{ entryDate := E, exitDate := X }])) X } ∧
      calculateUsedDaysWithinWindow
        (normalizeTrips (trips ++ [{ entryDate := E, exitDate := X }])) X ≤ 90) ∧
    (∀ d : Int, E ≤ d → d ≤ X →
      90 < calculateUsedDaysWithinWindow
        (normalizeTrips (trips ++ [{ entryDate := E, exitDate := X }])) d →
      (∀ e : Int, E ≤ e → e < d →
        calculateUsedDaysWithinWindow
          (normalizeTrips (trips ++ [{ entryDate := E, exitDate := X }])) e ≤ 90) →
      canStayForPeriod trips E X =
        { isAllowed := false, violationDate := some d,
          usedOnExit := calculateUsedDaysWithinWindow
            (normalizeTrips (trips ++ [{ entryDate := E, exitDate := X }])) d }) := by
  constructor
  · intro hall
    have hnone : scanViolation (normalizeTrips (trips ++ [{ entryDate := E, exitDate := X }]))
        E ((X - E + 1).toNat) = none := by
      rw [scanViolation_eq_none_iff]
      intro i hi
      exact hall (E + i) (by omega) (by omega)
    rw [canStayForPeriod_eq, hnone]
    exact ⟨rfl, hall X hEX (le_refl X)⟩
  · intro d hdE hdX hgt hmin
    have harith : E + ((d - E).toNat : Int) = d := by omega
    have hfind := scanViolation_finds
      (normalizeTrips (trips ++ [{ entryDate := E, exitDate := X }]))
      ((X - E + 1).toNat) E (d - E).toNat (by omega)
      (by rw [harith]; exact hgt)
      (by
        intro j hj
        exact hmin (E + j) (by omega) (by omega))
    rw [harith] at hfind
    rw [canStayForPeriod_eq, hfind]

/-- Witness for C2 at the concrete input `trips = []`, `E = X = 0`:
a one-day stay on empty history is allowed with usage measured at the exit. -/
theorem c2_checkStay_scan_spec_witness :
    canStayForPeriod [] 0 0 =
      { isAllowed := true, violationDate := none,
        usedOnExit := calculateUsedDaysWithinWindow
          (normalizeTrips ([] ++ [{ entryDate := 0, exitDate := 0 }])) 0 } :=
  ((c2_checkStay_scan_spec [] 0 0 (by decide)).1 (by
    intro d h1 h2
    have hd : d = 0 := le_antisymm h2 h1
    subst hd
    decide)).1

/-- C3: for every list of valid trips (possibly unsorted and overlapping),
the output of `normalizeTrips` is made of valid intervals, sorted strictly
ascending by entry date, pairwise non-overlapping, with every gap between
consecutive intervals at least 2 days (so zero-day-gap pairs are merged and
pairs separated by a free day are not), and it covers exactly the same set
of calendar days as the input. -/
theorem c3_normalize_invariant (trips : List Trip) (hv : ValidTrips trips) :
    ValidTrips (normalizeTrips trips) ∧
    List.Pairwise (fun a b => a.entryDate < b.entryDate) (normalizeTrips trips) ∧
    List.Pairwise (fun a b => Disjoint (tripDays a) (tripDays b)) (normalizeTrips trips) ∧
    List.Chain' GapOk (normalizeTrips trips) ∧
    expandTrips (normalizeTrips trips) = expandTrips trips := by
  have hnorm : NormalizedList (normalizeTrips trips) :=
    ⟨normalizeTrips_valid trips hv, normalizeTrips_chain trips⟩
  exact ⟨hnorm.1, normalized_sorted_lt hnorm, normalized_pairwise_disjoint hnorm,
    hnorm.2, normalizeTrips_cover trips hv⟩

/-- Witness for C3 at a concrete unsorted, overlapping, adjacent input. -/
theorem c3_normalize_invariant_witness :
    expandTrips (normalizeTrips [{ entryDate := 4, exitDate := 6 },
        { entryDate := 1, exitDate := 3 }, { entryDate := 2, exitDate := 5 },
        { entryDate := 9, exitDate := 9 }]) =
      expandTrips [{ entryDate := 4, exitDate := 6 },
        { entryDate := 1, exitDate := 3 }, { entryDate := 2, exitDate := 5 },
        { entryDate := 9, exitDate := 9 }] :=
  (c3_normalize_invariant _ (by decide)).2.2.2.2

/-- C4: for a fixed valid trip history and fixed entry date `E`, feasibility
is monotonically decreasing in trip length: if the stay `[E, E + k]`
(`k ≥ 0`) is rejected, every longer stay `[E, E + m]` with `m ≥ k` is
rejected as well. -/
theorem c4_monotonic_in_length (trips : List Trip) (E k m : Int)
    (hv : ValidTrips trips) (hk : 0 ≤ k) (hkm : k ≤ m)
    (hfail : (canStayForPeriod trips E (E + k)).isAllowed = false) :
    (canStayForPeriod trips E (E + m)).isAllowed = false := by
  rw [canStay_not_allowed_iff] at hfail ⊢
  obtain ⟨d, hdE, hdX, hgt⟩ := hfail
  exact ⟨d, hdE, by omega,
    lt_of_lt_of_le hgt (usedDays_combined_mono trips E k m d hv hk hkm)⟩

/-- Witness for C4: with the whole current window already used, the one-day
stay on day 1 fails, hence so does the two-day stay. -/
theorem c4_monotonic_in_length_witness :
    (canStayForPeriod [{ entryDate := -179, exitDate := 0 }] 1 (1 + 1)).isAllowed = false :=
  c4_monotonic_in_length [{ entryDate := -179, exitDate := 0 }] 1 0 1
    (by decide) (by decide) (by decide) (by decide)

/-- C5: `maxDays` returned by `getMaxSafeStayFromDate` lies in `[0, 90]`;
either it is `0` or the stay of that length (exit `E + maxDays - 1`) is
allowed; and when it is below 90 the stay one day longer (exit
`E + maxDays`) is rejected. -/
theorem c5_maxSafeStay_boundary (trips : List Trip) (E : Int) :
    0 ≤ (getMaxSafeStayFromDate trips E).maxDays ∧
    (getMaxSafeStayFromDate trips E).maxDays ≤ 90 ∧
    ((getMaxSafeStayFromDate trips E).maxDays = 0 ∨
      (canStayForPeriod trips E
        (E + (getMaxSafeStayFromDate trips E).maxDays - 1)).isAllowed = true) ∧
    ((getMaxSafeStayFromDate trips E).maxDays < 90 →
      (canStayForPeriod trips E
        (E + (getMaxSafeStayFromDate trips E).maxDays)).isAllowed = false) := by
  obtain ⟨h1, h2, h3, h4⟩ := safeLengthFrom_spec trips E 90 0
  have hmax : (getMaxSafeStayFromDate trips E).maxDays =
      ((safeLengthFrom trips E 0 90 : Nat) : Int) := rfl
  refine ⟨by rw [hmax]; exact Int.natCast_nonneg _, by rw [hmax]; exact_mod_cast by omega,
    ?_, ?_⟩
  · rcases h3 with heq | hok
    · left
      rw [hmax, heq]
      rfl
    · right
      rw [hmax]
      exact hok
  · intro hlt
    rw [hmax] at hlt ⊢
    exact h4 (by omega)

/-- C6: collapsing the expanded presence set of a valid trip list yields
exactly its normalized form (entry and exit dates; ids are not modelled). -/
theorem c6_collapse_expand (T : List Trip) (hv : ValidTrips T) :
    updateTripsFromSet (expandTrips T) = normalizeTrips T :=
  normalized_cover_unique _ _ (updateTripsFromSet_normalized _)
    ⟨normalizeTrips_valid T hv, normalizeTrips_chain T⟩
    (by rw [updateTripsFromSet_cover, normalizeTrips_cover T hv])

/-- Witness for C6 at a concrete overlapping and adjacent input. -/
theorem c6_collapse_expand_witness :
    updateTripsFromSet (expandTrips [{ entryDate := 1, exitDate := 3 },
        { entryDate := 4, exitDate := 6 }, { entryDate := 2, exitDate := 5 }]) =
      normalizeTrips [{ entryDate := 1, exitDate := 3 },
        { entryDate := 4, exitDate := 6 }, { entryDate := 2, exitDate := 5 }] :=
  c6_collapse_expand _ (by decide)

/-- C7 counterexample: the claim asserts `usedDays ∈ [0, 180]` for every
trip list whose trips each satisfy `entryDate ≤ exitDate`, but
`calculateUsedDaysWithinWindow` performs no merging, so a duplicated
window-filling trip is counted twice: the result is 360. -/
theorem c7_bounds_counterexample :
    calculateUsedDaysWithinWindow [{ entryDate := -179, exitDate := 0 },
        { entryDate := -179, exitDate := 0 }] 0 = 360 ∧
    ¬ calculateUsedDaysWithinWindow [{ entryDate := -179, exitDate := 0 },
        { entryDate := -179, exitDate := 0 }] 0 ≤ 180 := by
  refine ⟨?_, ?_⟩ <;> decide

/-- C7 (amended): for every trip list whose trips are pairwise
non-overlapping — in particular any normalized list — the window usage lies
in `[0, 180]`. -/
theorem c7_usedDays_bounds (trips : List Trip) (referenceDate : Int)
    (hd : List.Pairwise (fun a b => Disjoint (tripDays a) (tripDays b)) trips) :
    0 ≤ calculateUsedDaysWithinWindow trips referenceDate ∧
    calculateUsedDaysWithinWindow trips referenceDate ≤ 180 := by
  rw [usedDays_eq_card _ _ hd]
  refine ⟨Int.natCast_nonneg _, ?_⟩
  have hle : (expandTrips trips ∩ Finset.Icc (referenceDate - 179) referenceDate).card ≤
      (Finset.Icc (referenceDate - 179) referenceDate).card :=
    Finset.card_le_card Finset.inter_subset_right
  have hcard : (Finset.Icc (referenceDate - 179) referenceDate).card = 180 := by
    rw [Int.card_Icc]
    omega
  omega

/-- Witness for C7 (amended) at a concrete disjoint trip list. -/
theorem c7_usedDays_bounds_witness :
    0 ≤ calculateUsedDaysWithinWindow [{ entryDate := -6, exitDate := 0 },
        { entryDate := 2, exitDate := 5 }] 0 ∧
    calculateUsedDaysWithinWindow [{ entryDate := -6, exitDate := 0 },
        { entryDate := 2, exitDate := 5 }] 0 ≤ 180 :=
  c7_usedDays_bounds _ 0 (by decide)

/-- C8: whatever presence set an edit produces (`toggleDate` and
`addTripRange` both collapse one through `updateTripsFromSet`), the
resulting trip list already satisfies the NormalizedIntervalSet invariant,
`normalizeTrips` leaves it unchanged, and feeding it directly to
`calculateUsedDaysWithinWindow` counts exactly the presence days inside the
window — no double-counting. -/
theorem c8_edit_output_normalized (dateSet : Finset Int) :
    ValidTrips (updateTripsFromSet dateSet) ∧
    List.Pairwise (fun a b => a.entryDate < b.entryDate) (updateTripsFromSet dateSet) ∧
    List.Pairwise (fun a b => Disjoint (tripDays a) (tripDays b))
      (updateTripsFromSet dateSet) ∧
    List.Chain' GapOk (updateTripsFromSet dateSet) ∧
    normalizeTrips (updateTripsFromSet dateSet) = updateTripsFromSet dateSet ∧
    ∀ referenceDate : Int,
      calculateUsedDaysWithinWindow (updateTripsFromSet dateSet) referenceDate =
        ((dateSet ∩ Finset.Icc (referenceDate - 179) referenceDate).card : Int) := by
  have hnorm := updateTripsFromSet_normalized dateSet
  refine ⟨hnorm.1, normalized_sorted_lt hnorm, normalized_pairwise_disjoint hnorm,
    hnorm.2, normalizeTrips_id_of_normalized hnorm, ?_⟩
  intro referenceDate
  rw [usedDays_eq_card _ _ (normalized_pairwise_disjoint hnorm), updateTripsFromSet_cover]

/-- C9: whenever `canStayForPeriod` rejects a stay, the returned
`usedOnExit` is the usage computed on the violation day itself — the first
day of the stay whose usage exceeds 90 — hence a value strictly greater
than 90. -/
theorem c9_usedOnExit_on_violation (trips : List Trip) (E X : Int)
    (h : (canStayForPeriod trips E X).isAllowed = false) :
    ∃ d : Int, E ≤ d ∧ d ≤ X ∧
      (canStayForPeriod trips E X).violationDate = some d ∧
      (canStayForPeriod trips E X).usedOnExit =
        calculateUsedDaysWithinWindow
          (normalizeTrips (trips ++ [{ entryDate := E, exitDate := X }])) d ∧
      90 < (canStayForPeriod trips E X).usedOnExit := by
  cases hscan : scanViolation (normalizeTrips (trips ++ [{ entryDate := E, exitDate := X }]))
      E ((X - E + 1).toNat) with
  | none =>
    exfalso
    rw [canStayForPeriod_eq, hscan] at h
    simp at h
  | some p =>
    obtain ⟨d, u⟩ := p
    obtain ⟨i, hi, hd, hu, hgt, hmin⟩ := scanViolation_eq_some _ _ _ _ _ hscan
    refine ⟨d, by omega, by omega, ?_, ?_, ?_⟩
    · rw [canStayForPeriod_eq, hscan]
    · rw [canStayForPeriod_eq, hscan]
      exact hu
    · rw [canStayForPeriod_eq, hscan]
      show 90 < u
      omega

/-- Witness for C9: a 92-day stay on empty history violates on its 91st day
with usage 91, and that value (not the exit-day usage) is reported. -/
theorem c9_usedOnExit_on_violation_witness :
    ∃ d : Int, 0 ≤ d ∧ d ≤ 91 ∧
      (canStayForPeriod [] 0 91).violationDate = some d ∧
      (canStayForPeriod [] 0 91).usedOnExit =
        calculateUsedDaysWithinWindow
          (normalizeTrips ([] ++ [{ entryDate := 0, exitDate := 91 }])) d ∧
      90 < (canStayForPeriod [] 0 91).usedOnExit :=
  c9_usedOnExit_on_violation [] 0 91 (by decide)

/-- C10: when `getMaxSafeStayFromDate` returns `maxDays = 0`, the returned
`untilDate` is the day immediately before the requested entry date. -/
theorem c10_untilDate_when_zero (trips : List Trip) (plannedEntry : Int)
    (h : (getMaxSafeStayFromDate trips plannedEntry).maxDays = 0) :
    (getMaxSafeStayFromDate trips plannedEntry).untilDate = plannedEntry - 1 := by
  have huntil : (getMaxSafeStayFromDate trips plannedEntry).untilDate =
      plannedEntry + (getMaxSafeStayFromDate trips plannedEntry).maxDays - 1 := rfl
  rw [huntil, h]
  ring

/-- Witness for C10: with the whole current window already used from day
-179 to day 0, no stay can start on day 1, and `untilDate` is day 0. -/
theorem c10_untilDate_when_zero_witness :
    (getMaxSafeStayFromDate [{ entryDate := -179, exitDate := 0 }] 1).untilDate = 1 - 1 :=
  c10_untilDate_when_zero [{ entryDate := -179, exitDate := 0 }] 1 (by decide)
